import Mathlib

/-!
Verification of the state-indexing core of libDAI (`VarSet`, from
`include/dai/varset.h`) and of the exact inference engine interface
(`ExactInf`, from `include/dai/exactinf.h`), as a shallow embedding in Lean.

Machine integers (`size_t`) are modelled as `Nat`: the spec declares overflow
out of scope ("No overflow checking is specified beyond the natural range of
the host's integer type; callers must ensure the product is representable").
Real-valued factor entries are modelled as `ℚ`.
-/

set_option autoImplicit false

namespace LibDAI

/-- Modelled from the spec (var.h is absent from the sources): a discrete
random variable, identified by a unique integer label, with an associated
finite cardinality `states` (number of possible values, at least 1 by the
data-model invariant).  Two variables are ordered by label, so in every
ordered container a `Var` is keyed by its label alone. -/
structure Var where
  label : Nat
  states : Nat
  states_pos : 0 < states

/-- A state assignment, modelling `std::map<Var, size_t>`: an association
list of (variable, state) pairs.  A wellformed `std::map` keyed by `Var`
has its entries sorted strictly ascending by label; the operations below
only ever rely on lookup, which is accurate on any list whose relevant
labels occur once. -/
abbrev StateMap := List (Var × Nat)

/-- Models `states.find( *n )` on a `std::map<Var, size_t>` followed by
reading the mapped value.  Since `std::map` is keyed by `Var` under the
label order (spec: "Two variables are ordered by label"), `find` succeeds
exactly on label equality. -/
def lookupState (sts : StateMap) (v : Var) : Option Nat :=
  (sts.find? (fun p => p.1.label == v.label)).map (fun p => p.2)

/-- `VarSet` from `varset.h`: a set of random variables.  Internally the
variables are kept sorted ascending by their labels (the `SmallSet<Var>`
representation: a sorted, duplicate-free vector; `smallset.h` itself is
absent from the sources, its sorted-vector representation is modelled from
the spec and the class documentation in `varset.h`). -/
structure VarSet where
  vars : List Var
  sorted : vars.Pairwise (fun a b => a.label < b.label)

/-- `VarSet::nrStates` (varset.h lines 77-82): `states = 1;` then
`states *= n->states()` for each variable in order. -/
def nrStates (vs : VarSet) : Nat :=
  vs.vars.foldl (fun acc v => acc * v.states) 1

/-- The loop body of `VarSet::calcState` (varset.h lines 109-119), with the
accumulators `prod` and `state` explicit:
for each variable `n` in order, if `states.find(*n)` succeeds then
`state += prod * m->second`, and in any case `prod *= n->states()`. -/
def calcStateAux : List Var → StateMap → Nat → Nat → Nat
  | [], _, _, state => state
  | v :: rest, sts, prod, state =>
      calcStateAux rest sts (prod * v.states)
        (match lookupState sts v with
          | some s => state + prod * s
          | none => state)

/-- `VarSet::calcState` (varset.h lines 109-119): the linear index in the
Cartesian product of the variables of `vs` corresponding to the joint
assignment `sts`; variables for which no state is specified are taken to be
in state 0. -/
def calcState (vs : VarSet) (sts : StateMap) : Nat :=
  calcStateAux vs.vars sts 1 0

/-- Modelled from the spec: the failure conditions of the core.  The
`DAI_THROW` / `DAI_ASSERT` machinery (exceptions.h) is absent from the
sources; the spec names the condition signalled by `calcStates` on a bad
index `IndexOutOfRange` and the condition signalled by the unsupported
`ExactInf` operations `NotImplemented`. -/
inductive DaiException where
  | INDEX_OUT_OF_RANGE
  | NOT_IMPLEMENTED
deriving DecidableEq, Repr

/-- The loop of `VarSet::calcStates` (varset.h lines 140-148): for each
variable `n` in ascending order, `states[*n] = linearState % n->states();
linearState /= n->states();`.  Returns the built map (entries in ascending
label order, as a `std::map` keyed by `Var` stores them) together with the
final value of `linearState`. -/
def calcStatesAux : List Var → Nat → StateMap × Nat
  | [], i => ([], i)
  | v :: rest, i =>
      let r := calcStatesAux rest (i / v.states)
      ((v, i % v.states) :: r.1, r.2)

/-- `VarSet::calcStates` (varset.h lines 140-148): decodes a linear index
into a joint assignment of all variables of `vs`.  The trailing
`DAI_ASSERT( linearState == 0 )` is the contract check that the supplied
index was in range; its failure is the `IndexOutOfRange` condition. -/
def calcStates (vs : VarSet) (linearState : Nat) : Except DaiException StateMap :=
  let r := calcStatesAux vs.vars linearState
  if r.2 = 0 then .ok r.1 else .error .INDEX_OUT_OF_RANGE

/-- Structural product of the cardinalities of a list of variables. -/
def prodStates : List Var → Nat
  | [] => 1
  | v :: rest => v.states * prodStates rest

theorem foldl_mul_states (l : List Var) (a : Nat) :
    l.foldl (fun acc v => acc * v.states) a = a * prodStates l := by
  induction l generalizing a with
  | nil => simp [prodStates]
  | cons v rest ih =>
      simp only [List.foldl_cons, prodStates, ih, Nat.mul_assoc]

theorem nrStates_eq_prodStates (vs : VarSet) : nrStates vs = prodStates vs.vars := by
  simpa [nrStates] using foldl_mul_states vs.vars 1

theorem prodStates_eq_prod_map (l : List Var) :
    prodStates l = (l.map Var.states).prod := by
  induction l with
  | nil => simp [prodStates]
  | cons v rest ih => simp [prodStates, ih]

theorem lookupState_nil (v : Var) : lookupState [] v = none := rfl

theorem lookupState_cons_self (v : Var) (s : Nat) (m : StateMap) :
    lookupState ((v, s) :: m) v = some s := by
  simp [lookupState, List.find?]

theorem lookupState_cons_ne (w v : Var) (s : Nat) (m : StateMap)
    (h : w.label ≠ v.label) : lookupState ((w, s) :: m) v = lookupState m v := by
  simp only [lookupState, List.find?]
  have : (w.label == v.label) = false := by simpa using h
  simp [this]

/-- `calcStateAux` only inspects the map through lookups of the listed
variables. -/
theorem calcStateAux_congr (l : List Var) (m₁ m₂ : StateMap) :
    ∀ prod state, (∀ v ∈ l, lookupState m₁ v = lookupState m₂ v) →
      calcStateAux l m₁ prod state = calcStateAux l m₂ prod state := by
  induction l with
  | nil => intro prod state _; rfl
  | cons v rest ih =>
      intro prod state h
      simp only [calcStateAux, h v (by simp)]
      exact ih _ _ (fun w hw => h w (by simp [hw]))

theorem calcStateAux_nilmap (l : List Var) :
    ∀ prod state, calcStateAux l [] prod state = state := by
  induction l with
  | nil => intro prod state; rfl
  | cons v rest ih =>
      intro prod state
      simp only [calcStateAux, lookupState_nil]
      exact ih _ _

/-- The final value of `linearState` after the `calcStates` loop is the
original index divided by the product of all cardinalities. -/
theorem calcStatesAux_snd (l : List Var) :
    ∀ i, (calcStatesAux l i).2 = i / prodStates l := by
  induction l with
  | nil => intro i; simp [calcStatesAux, prodStates]
  | cons v rest ih =>
      intro i
      simp only [calcStatesAux, ih, prodStates]
      rw [Nat.div_div_eq_div_mul]

theorem prodStates_pos (l : List Var) : 0 < prodStates l := by
  induction l with
  | nil => simp [prodStates]
  | cons v rest ih => exact Nat.mul_pos v.states_pos ih

/-- Core round-trip lemma: encoding the assignment decoded from an in-range
index recovers the index, for any sorted (hence duplicate-free) variable
list and any values of the accumulators. -/
theorem calcStateAux_calcStatesAux (l : List Var)
    (hl : l.Pairwise (fun a b => a.label < b.label)) :
    ∀ i prod state, i < prodStates l →
      calcStateAux l (calcStatesAux l i).1 prod state = state + prod * i := by
  induction l with
  | nil =>
      intro i prod state hi
      simp only [prodStates, Nat.lt_one_iff] at hi
      simp [calcStatesAux, calcStateAux, hi]
  | cons v rest ih =>
      intro i prod state hi
      rcases List.pairwise_cons.mp hl with ⟨hhead, htail⟩
      have hS : 0 < v.states := v.states_pos
      have hdiv : i / v.states < prodStates rest := by
        rw [Nat.div_lt_iff_lt_mul hS]
        simpa [prodStates, Nat.mul_comm] using hi
      simp only [calcStatesAux, calcStateAux, lookupState_cons_self]
      rw [calcStateAux_congr rest _ (calcStatesAux rest (i / v.states)).1 _ _
          (fun w hw => lookupState_cons_ne v w _ _ (Nat.ne_of_lt (hhead w hw)))]
      rw [ih htail _ _ _ hdiv]
      have : prod * (i % v.states) + prod * v.states * (i / v.states)
          = prod * i := by
        rw [Nat.mul_assoc, ← Nat.mul_add, Nat.mod_add_div]
      omega

/-- The value of a full digit list in the mixed radix given by a variable
list (little-endian: first variable varies fastest). -/
def digitsVal : List Var → List Nat → Nat
  | _, [] => 0
  | [], _ => 0
  | v :: l, d :: ds => d + v.states * digitsVal l ds

/-- Encoding a zipped assignment over a sorted variable list computes the
mixed-radix value of the digit list. -/
theorem calcStateAux_zip (l : List Var)
    (hl : l.Pairwise (fun a b => a.label < b.label)) :
    ∀ ds prod state,
      calcStateAux l (l.zip ds) prod state = state + prod * digitsVal l ds := by
  induction l with
  | nil => intro ds prod state; cases ds <;> simp [calcStateAux, digitsVal]
  | cons v rest ih =>
      intro ds prod state
      rcases List.pairwise_cons.mp hl with ⟨hhead, htail⟩
      cases ds with
      | nil => simp [List.zip_nil_right, calcStateAux_nilmap, digitsVal]
      | cons d ds =>
          simp only [List.zip_cons_cons, calcStateAux, lookupState_cons_self]
          rw [calcStateAux_congr rest _ (rest.zip ds) _ _
              (fun w hw => lookupState_cons_ne v w _ _ (Nat.ne_of_lt (hhead w hw)))]
          rw [ih htail ds _ _]
          simp only [digitsVal]
          ring

/-- A full in-range digit list has value below the full state-space size. -/
theorem digitsVal_lt (l : List Var) :
    ∀ ds : List Nat, ds.length = l.length →
      (∀ p ∈ l.zip ds, p.2 < p.1.states) →
      digitsVal l ds < prodStates l := by
  induction l with
  | nil =>
      intro ds hlen _
      have hds : ds = [] := List.length_eq_zero.mp (by simpa using hlen)
      subst hds
      simp [digitsVal, prodStates]
  | cons v rest ih =>
      intro ds hlen hin
      cases ds with
      | nil => simp at hlen
      | cons d ds =>
          have hd : d < v.states := hin (v, d) (by simp [List.zip_cons_cons])
          have hrec : digitsVal rest ds < prodStates rest := by
            refine ih ds (by simpa using hlen) (fun p hp => hin p ?_)
            simp [List.zip_cons_cons, hp]
          simp only [digitsVal, prodStates]
          calc d + v.states * digitsVal rest ds
              < v.states + v.states * digitsVal rest ds := by omega
            _ = v.states * (digitsVal rest ds + 1) := by ring
            _ ≤ v.states * prodStates rest :=
                Nat.mul_le_mul_left _ (by omega)

/-- Decoding the mixed-radix value of a full in-range digit list recovers
the zipped assignment, with remainder 0. -/
theorem calcStatesAux_digitsVal (l : List Var) :
    ∀ ds : List Nat, ds.length = l.length →
      (∀ p ∈ l.zip ds, p.2 < p.1.states) →
      calcStatesAux l (digitsVal l ds) = (l.zip ds, 0) := by
  induction l with
  | nil =>
      intro ds hlen _
      have hds : ds = [] := List.length_eq_zero.mp (by simpa using hlen)
      subst hds
      simp [calcStatesAux, digitsVal]
  | cons v rest ih =>
      intro ds hlen hin
      cases ds with
      | nil => simp at hlen
      | cons d ds =>
          have hd : d < v.states := hin (v, d) (by simp [List.zip_cons_cons])
          have hmod : (d + v.states * digitsVal rest ds) % v.states = d := by
            rw [Nat.add_mul_mod_self_left, Nat.mod_eq_of_lt hd]
          have hquot : (d + v.states * digitsVal rest ds) / v.states
              = digitsVal rest ds := by
            rw [Nat.add_mul_div_left _ _ v.states_pos, Nat.div_eq_of_lt hd,
              Nat.zero_add]
          simp only [digitsVal, calcStatesAux, hmod, hquot]
          rw [ih ds (by simpa using hlen) (fun p hp => hin p (by simp [List.zip_cons_cons, hp]))]
          simp [List.zip_cons_cons]

/-- Mixed-radix bound: the encoding loop keeps its accumulator below
`prod * prodStates l` whenever every effective state is in range. -/
theorem calcStateAux_lt (l : List Var) :
    ∀ sts prod state, (∀ v ∈ l, (lookupState sts v).getD 0 < v.states) →
      state < prod → calcStateAux l sts prod state < prod * prodStates l := by
  induction l with
  | nil => intro sts prod state _ h; simpa [calcStateAux, prodStates] using h
  | cons v rest ih =>
      intro sts prod state hin hst
      have hv := hin v (by simp)
      have hnext : (match lookupState sts v with
          | some s => state + prod * s
          | none => state) < prod * v.states := by
        cases hlk : lookupState sts v with
        | none =>
            simp only
            calc state < prod := hst
              _ ≤ prod * v.states := Nat.le_mul_of_pos_right _ v.states_pos
        | some s =>
            simp only
            have hs : s < v.states := by simpa [hlk] using hv
            calc state + prod * s < prod + prod * s := by omega
              _ = prod * (s + 1) := by ring
              _ ≤ prod * v.states := Nat.mul_le_mul_left _ hs
      simp only [calcStateAux]
      have hrec := ih sts (prod * v.states) _
        (fun w hw => hin w (by simp [hw])) hnext
      rw [prodStates, ← Nat.mul_assoc]
      exact hrec

/-- The `hornerEnc` form of the encoding loop: the value accumulated by
`calcState`, written as a little-endian Horner evaluation of the effective
states (specified state, or 0 when absent). -/
def hornerEnc : List Var → StateMap → Nat
  | [], _ => 0
  | v :: rest, sts => (lookupState sts v).getD 0 + v.states * hornerEnc rest sts

theorem calcStateAux_eq_horner (l : List Var) :
    ∀ sts prod state,
      calcStateAux l sts prod state = state + prod * hornerEnc l sts := by
  induction l with
  | nil => intro sts prod state; simp [calcStateAux, hornerEnc]
  | cons v rest ih =>
      intro sts prod state
      simp only [calcStateAux, hornerEnc]
      cases hlk : lookupState sts v with
      | none => simp only; rw [ih]; simp [hlk]; ring
      | some s => simp only; rw [ih]; simp [hlk]; ring

/-- The stride of position `k`: the product of the cardinalities of the
variables preceding it. -/
def strideOf (l : List Var) (k : Nat) : Nat := prodStates (l.take k)

/-- The effective state of the variable at position `k`: its entry in the
assignment, defaulting to 0 when it is absent (and 0 beyond the end). -/
def stateAt (l : List Var) (sts : StateMap) (k : Nat) : Nat :=
  match l[k]? with
  | some v => (lookupState sts v).getD 0
  | none => 0

/-- The mixed-radix little-endian index as the spec words it: the sum, over
the positions of `l` in ascending label order, of stride times effective
state, where the stride of a position is the product of the cardinalities
of all earlier variables. -/
def encodeSpec (l : List Var) (sts : StateMap) : Nat :=
  ∑ k ∈ Finset.range l.length, strideOf l k * stateAt l sts k

theorem hornerEnc_eq_encodeSpec (l : List Var) (sts : StateMap) :
    hornerEnc l sts = encodeSpec l sts := by
  induction l with
  | nil => simp [hornerEnc, encodeSpec]
  | cons v rest ih =>
      simp only [hornerEnc, encodeSpec, List.length_cons]
      rw [Finset.sum_range_succ']
      have h0 : strideOf (v :: rest) 0 * stateAt (v :: rest) sts 0
          = (lookupState sts v).getD 0 := by
        simp [strideOf, stateAt, prodStates]
      have hsh : ∀ k, strideOf (v :: rest) (k + 1) * stateAt (v :: rest) sts (k + 1)
          = v.states * (strideOf rest k * stateAt rest sts k) := by
        intro k
        simp only [strideOf, stateAt, List.take_succ_cons, prodStates,
          List.getElem?_cons_succ]
        ring
      simp only [hsh, h0, ← Finset.mul_sum]
      rw [ih, encodeSpec]
      ring

section Witnesses

/-- Concrete variable with label 0 and 2 states, used in witnesses. -/
def vA : Var := ⟨0, 2, by norm_num⟩

/-- Concrete variable with label 1 and 3 states, used in witnesses. -/
def vB : Var := ⟨1, 3, by norm_num⟩

/-- Concrete variable with label 5 and 2 states, not a member of `vsAB`. -/
def vC : Var := ⟨5, 2, by norm_num⟩

/-- The concrete VarSet {vA, vB}, with 2 * 3 = 6 joint states. -/
def vsAB : VarSet := ⟨[vA, vB], by simp [vA, vB]⟩

end Witnesses

/-- C1: for every VariableSet `vs` and every index `i` in
`[0, nrStates vs)`, decoding `i` with `calcStates` succeeds and encoding
the resulting assignment with `calcState` yields `i` back. -/
theorem calcState_calcStates_roundtrip (vs : VarSet) (i : Nat)
    (hi : i < nrStates vs) :
    (calcStates vs i).map (calcState vs) = Except.ok i := by
  have hP : i < prodStates vs.vars := by rwa [nrStates_eq_prodStates] at hi
  have h0 : (calcStatesAux vs.vars i).2 = 0 := by
    rw [calcStatesAux_snd]
    exact Nat.div_eq_of_lt hP
  have henc : calcState vs (calcStatesAux vs.vars i).1 = i := by
    simpa [calcState] using
      calcStateAux_calcStatesAux vs.vars vs.sorted i 1 0 hP
  simp [calcStates, h0, Except.map, henc]

/-- Witness for C1 at `vs = vsAB`, `i = 5`. -/
theorem calcState_calcStates_roundtrip_witness :
    5 < nrStates vsAB ∧
      (calcStates vsAB 5).map (calcState vsAB) = Except.ok 5 :=
  ⟨by decide, calcState_calcStates_roundtrip vsAB 5 (by decide)⟩

/-- C2: for every VariableSet `vs` and every full in-range assignment over
`vs` (given as the list of variables zipped with their states), decoding
the encoded index recovers the assignment. -/
theorem calcStates_calcState_roundtrip (vs : VarSet) (ds : List Nat)
    (hlen : ds.length = vs.vars.length)
    (hin : ∀ p ∈ vs.vars.zip ds, p.2 < p.1.states) :
    calcStates vs (calcState vs (vs.vars.zip ds)) =
      Except.ok (vs.vars.zip ds) := by
  have henc : calcState vs (vs.vars.zip ds) = digitsVal vs.vars ds := by
    simpa [calcState] using calcStateAux_zip vs.vars vs.sorted ds 1 0
  rw [henc]
  have hdec := calcStatesAux_digitsVal vs.vars ds hlen hin
  simp [calcStates, hdec]

/-- Witness for C2 at `vs = vsAB`, assignment `vA := 1, vB := 2`. -/
theorem calcStates_calcState_roundtrip_witness :
    ([1, 2] : List Nat).length = vsAB.vars.length ∧
      (∀ p ∈ vsAB.vars.zip [1, 2], p.2 < p.1.states) ∧
      calcStates vsAB (calcState vsAB (vsAB.vars.zip [1, 2])) =
        Except.ok (vsAB.vars.zip [1, 2]) :=
  ⟨by decide, by decide,
    calcStates_calcState_roundtrip vsAB [1, 2] (by decide) (by decide)⟩

/-- C3: for every VariableSet `vs` and every index `i ≥ nrStates vs`,
decoding fails with the `IndexOutOfRange` condition, the failure being
detected by the remaining quotient not being 0 after all variables are
processed. -/
theorem calcStates_rejects_large_index (vs : VarSet) (i : Nat)
    (hi : nrStates vs ≤ i) :
    (calcStatesAux vs.vars i).2 ≠ 0 ∧
      calcStates vs i = Except.error DaiException.INDEX_OUT_OF_RANGE := by
  have hP : prodStates vs.vars ≤ i := by rwa [nrStates_eq_prodStates] at hi
  have h1 : 0 < (calcStatesAux vs.vars i).2 := by
    rw [calcStatesAux_snd]
    exact (Nat.one_le_div_iff (prodStates_pos _)).mpr hP
  have hne : (calcStatesAux vs.vars i).2 ≠ 0 := Nat.pos_iff_ne_zero.mp h1
  exact ⟨hne, by simp [calcStates, hne]⟩

/-- Witness for C3 at `vs = vsAB`, `i = 6 = nrStates vsAB`. -/
theorem calcStates_rejects_large_index_witness :
    nrStates vsAB ≤ 6 ∧
      ((calcStatesAux vsAB.vars 6).2 ≠ 0 ∧
        calcStates vsAB 6 = Except.error DaiException.INDEX_OUT_OF_RANGE) :=
  ⟨by decide, calcStates_rejects_large_index vsAB 6 (by decide)⟩

/-- C4: `calcState` computes the mixed-radix little-endian index: the sum,
over the variables of `vs` in ascending label order, of stride times the
variable's state (0 when absent from the assignment), the stride of a
variable being the product of the cardinalities of all earlier variables.
This holds for every assignment, including incomplete ones. -/
theorem calcState_eq_encodeSpec (vs : VarSet) (sts : StateMap) :
    calcState vs sts = encodeSpec vs.vars sts := by
  rw [calcState, calcStateAux_eq_horner, hornerEnc_eq_encodeSpec]
  simp

/-- C5: `nrStates` returns the product of the cardinalities of the
variables of the set, taken in canonical (ascending label) order, and
returns 1 on the empty set. -/
theorem nrStates_eq_prod_of_cardinalities (vs : VarSet) :
    nrStates vs = (vs.vars.map Var.states).prod ∧
      nrStates ⟨[], List.Pairwise.nil⟩ = 1 :=
  ⟨by rw [nrStates_eq_prodStates, prodStates_eq_prod_map], rfl⟩

/-- C7 counterexample: `calcState` does not fail when the assignment
references a variable outside the VarSet.  Here the assignment mentions
only `vC` (label 5), which is not a member of `vsAB`; `calcState` returns
normally with index 0 (the foreign entry is ignored), the same result as
on the empty assignment. -/
theorem calcState_foreign_var_counterexample :
    calcState vsAB [(vC, 1)] = 0 ∧
      calcState vsAB [(vC, 1)] = calcState vsAB [] :=
  ⟨by decide, by decide⟩

/-- C7 amended: `calcState` never fails; an assignment entry for a
variable that is not a member of the VarSet is silently ignored and does
not change the computed index. -/
theorem calcState_ignores_foreign_var (vs : VarSet) (sts : StateMap)
    (w : Var) (s : Nat) (h : ∀ v ∈ vs.vars, v.label ≠ w.label) :
    calcState vs ((w, s) :: sts) = calcState vs sts := by
  unfold calcState
  exact calcStateAux_congr vs.vars _ _ 1 0
    (fun v hv => lookupState_cons_ne w v s sts (h v hv).symm)

/-- Witness for the amended C7 at `vs = vsAB`, foreign entry `(vC, 7)`. -/
theorem calcState_ignores_foreign_var_witness :
    (∀ v ∈ vsAB.vars, v.label ≠ vC.label) ∧
      calcState vsAB [(vC, 7)] = calcState vsAB [] :=
  ⟨by decide, calcState_ignores_foreign_var vsAB [] vC 7 (by decide)⟩

/-- C10: whenever every effective state (the specified state of a member
variable, or the default 0) is below that variable's cardinality, the
computed linear index is strictly below `nrStates vs`; `calcState` itself
is a total function and signals no error condition. -/
theorem calcState_lt_nrStates (vs : VarSet) (sts : StateMap)
    (hin : ∀ v ∈ vs.vars, (lookupState sts v).getD 0 < v.states) :
    calcState vs sts < nrStates vs := by
  rw [nrStates_eq_prodStates]
  simpa [calcState] using calcStateAux_lt vs.vars sts 1 0 hin (by norm_num)

/-- Witness for C10 at `vs = vsAB`, assignment `vB := 2` (vA left
unspecified). -/
theorem calcState_lt_nrStates_witness :
    (∀ v ∈ vsAB.vars, (lookupState [(vB, 2)] v).getD 0 < v.states) ∧
      calcState vsAB [(vB, 2)] < nrStates vsAB :=
  ⟨by decide, calcState_lt_nrStates vsAB [(vB, 2)] (by decide)⟩

/-- Modelled from the spec (factor.h is absent from the sources): a factor,
a table of real values indexed by the joint states of its VariableSet
scope (an array of length `nrStates (scope)`); real values are modelled
as ℚ. -/
structure Factor where
  vars : VarSet
  p : List ℚ

/-- The empty factor (empty scope, empty table), used as the out-of-range
default for table containers. -/
def emptyFactor : Factor := ⟨⟨[], List.Pairwise.nil⟩, []⟩

/-- Modelled from the spec (factorgraph.h is absent from the sources): a
factor graph exposes the ordered list of variables, the ordered list of
factors (each with its own VarSet scope and value table), and a lookup
from a variable to its position. -/
structure FactorGraph where
  vars : VarSet
  factors : List Factor

/-- Modelled from the spec: `findVar`, the factor graph's lookup from a
variable to its position in the graph's ordered variable list (variables
are keyed by their labels). -/
def findVar (fg : FactorGraph) (n : Var) : Nat :=
  fg.vars.vars.findIdx (fun w => w.label == n.label)

/-- The `ExactInf` engine state (exactinf.h): the bound factor graph (held
by the `DAIAlgFG` base), the configuration record `props` (whose only
field is `verbose`), the per-variable belief tables `_beliefsV`, the
per-factor belief tables `_beliefsF`, and the scalar partition value.  The
C++ stores the log partition function `_logZ` (a floating-point `Real`);
the model stores the partition sum `Zval` itself, of which `_logZ` is the
natural logarithm — the two determine each other, so equality of `Zval`
across states is equivalent to equality of `_logZ`. -/
structure ExactInf where
  fg : FactorGraph
  verbose : Nat
  beliefsV : List Factor
  beliefsF : List Factor
  Zval : ℚ

/-- `ExactInf::init( const VarSet &ns )` (exactinf.h lines 99-101): the
per-subset reinitialization; its whole body is `DAI_THROW(NOT_IMPLEMENTED)`,
so the call fails in every engine state. -/
def ExactInf.init (_e : ExactInf) (_ns : VarSet) : Except DaiException ExactInf :=
  .error .NOT_IMPLEMENTED

/-- `ExactInf::maxDiff` (exactinf.h lines 107-110): the convergence
difference query; its body is `DAI_THROW(NOT_IMPLEMENTED)` (the trailing
`return 0.0` is unreachable), so the call fails in every engine state. -/
def ExactInf.maxDiff (_e : ExactInf) : Except DaiException ℚ :=
  .error .NOT_IMPLEMENTED

/-- `ExactInf::Iterations` (exactinf.h lines 113-116): the iteration-count
query; its body is `DAI_THROW(NOT_IMPLEMENTED)` (the trailing `return 0`
is unreachable), so the call fails in every engine state. -/
def ExactInf.Iterations (_e : ExactInf) : Except DaiException Nat :=
  .error .NOT_IMPLEMENTED

/-- `ExactInf::beliefV` (exactinf.h line 123): returns `_beliefsV[i]`, a
copy of the stored per-variable table.  A C++ const method is modelled as
a call returning the result together with the post-call engine state. -/
def ExactInf.beliefV (e : ExactInf) (i : Nat) : Factor × ExactInf :=
  (e.beliefsV.getD i emptyFactor, e)

/-- `ExactInf::beliefF` (exactinf.h line 124): returns `_beliefsF[I]`, a
copy of the stored per-factor table. -/
def ExactInf.beliefF (e : ExactInf) (I : Nat) : Factor × ExactInf :=
  (e.beliefsF.getD I emptyFactor, e)

/-- `ExactInf::belief( const Var &n )` (exactinf.h line 84):
`beliefV( findVar( n ) )`. -/
def ExactInf.belief (e : ExactInf) (n : Var) : Factor × ExactInf :=
  e.beliefV (findVar e.fg n)

/-- `ExactInf::logZ` (exactinf.h line 93): returns the stored scalar
(`_logZ` in the C++, represented by `Zval` here). -/
def ExactInf.logZ (e : ExactInf) : ℚ × ExactInf :=
  (e.Zval, e)

/-- The decoding loop of `calcStates` without the final range assert (total;
it agrees with `calcStates` on every in-range index). -/
def decodeFull (vs : VarSet) (j : Nat) : StateMap :=
  (calcStatesAux vs.vars j).1

/-- Modelled from the spec: the factor-algebra evaluation contract (§3):
a factor's value at a joint assignment is its table entry at the linear
index of the assignment restricted to the factor's scope. -/
def evalFactor (F : Factor) (m : StateMap) : ℚ :=
  F.p.getD (calcState F.vars m) 0

/-- Modelled from the spec (run step 1): the joint factor over all
variables of the graph, obtained by pointwise-multiplying every factor of
the graph; entry `j` is the product over all factors of their value at the
assignment decoded from `j`. -/
def jointFactor (fg : FactorGraph) : Factor :=
  ⟨fg.vars,
    (List.range (nrStates fg.vars)).map
      (fun j => (fg.factors.map (fun F => evalFactor F (decodeFull fg.vars j))).prod)⟩

/-- Modelled from the spec (run steps 3-4): marginalization, summing the
entries of `F` over every joint state compatible with each state of the
smaller scope `s`. -/
def marginal (F : Factor) (s : VarSet) : Factor :=
  ⟨s,
    (List.range (nrStates s)).map
      (fun k => ((List.range (nrStates F.vars)).map
        (fun j => if calcState s (decodeFull F.vars j) = k then F.p.getD j 0
          else 0)).sum)⟩

/-- Modelled from the spec: normalization, dividing every entry by the
total mass (in ℚ a zero total mass yields a zero table, the image of the
NumericDegeneracy edge condition). -/
def normalize (F : Factor) : Factor :=
  ⟨F.vars, F.p.map (fun x => x / F.p.sum)⟩

/-- The VarSet containing the single variable `v`. -/
def singleVS (v : Var) : VarSet := ⟨[v], by simp⟩

/-- Modelled from the spec: `ExactInf::run` (declared at exactinf.h line
104; its body lives in exactinf.cpp, absent from the sources).  Following
§4.2 of the spec: build the joint factor by multiplying every factor of
the graph, record the total mass (of which `_logZ` is the logarithm),
then populate every per-variable belief (marginal of the joint onto the
variable, normalized) and every per-factor belief (marginal onto the
factor's scope, normalized), overwriting prior results.  The bound graph
and configuration are left untouched. -/
def ExactInf.run (e : ExactInf) : ExactInf :=
  let joint := jointFactor e.fg
  { e with
    Zval := joint.p.sum
    beliefsV := e.fg.vars.vars.map (fun v => normalize (marginal joint (singleVS v)))
    beliefsF := e.fg.factors.map (fun F => normalize (marginal joint F.vars)) }

/-- C6: on the exact engine, every operation meaningful only for iterative
algorithms fails with the `NotImplemented` condition in every engine
state: per-subset reinitialization `init(ns)`, the convergence query
`maxDiff()`, and the iteration-count query `Iterations()`. -/
theorem exactinf_iterative_ops_not_implemented (e : ExactInf) (ns : VarSet) :
    e.init ns = Except.error DaiException.NOT_IMPLEMENTED ∧
      e.maxDiff = Except.error DaiException.NOT_IMPLEMENTED ∧
      e.Iterations = Except.error DaiException.NOT_IMPLEMENTED :=
  ⟨rfl, rfl, rfl⟩

/-- C8: `run` is idempotent.  Running twice in succession on an engine
bound to an unchanged factor graph yields the same engine state as running
once — in particular identical per-variable beliefs, per-factor beliefs,
and partition scalar (hence identical `logZ`) — the second call
recomputing everything from the same graph and overwriting the first
call's results. -/
theorem run_idempotent (e : ExactInf) :
    e.run.run = e.run ∧
      e.run.run.beliefsV = e.run.beliefsV ∧
      e.run.run.beliefsF = e.run.beliefsF ∧
      e.run.run.Zval = e.run.Zval :=
  ⟨rfl, rfl, rfl, rfl⟩

/-- C9: belief and logZ queries are read-only: each call returns the
corresponding stored table (for `belief(n)`, the per-variable table at the
variable's position `findVar fg n`) or scalar, and leaves the engine state
— bound graph, belief vectors, partition scalar — unchanged. -/
theorem belief_queries_readonly (e : ExactInf) (n : Var) (i I : Nat) :
    (e.belief n).2 = e ∧ (e.beliefV i).2 = e ∧ (e.beliefF I).2 = e ∧
      e.logZ.2 = e ∧
      (e.belief n).1 = e.beliefsV.getD (findVar e.fg n) emptyFactor ∧
      (e.beliefV i).1 = e.beliefsV.getD i emptyFactor ∧
      (e.beliefF I).1 = e.beliefsF.getD I emptyFactor ∧
      e.logZ.1 = e.Zval :=
  ⟨rfl, rfl, rfl, rfl, rfl, rfl, rfl, rfl⟩

end LibDAI
